import Mathlib

/-!
Verification of the dataflux migration engine.

Shallow embedding of the core algorithms of the repository:
variant merge and picture transform (profiles/pictures/transform.ts),
binary-split batch retry (engine/batch.ts), checkpoint load/save
(engine/checkpoint.ts) and the orchestrating runner (engine/runner.ts).
-/

namespace Dataflux

/-! ## Picture variants and the merge algorithm (profiles/pictures/transform.ts) -/

/-- One picture variant row; `path` is `string | null` in the source. -/
structure PictureVariant where
  formatId : Option Int
  formatPictureId : Option Int
  width : Option Int
  height : Option Int
  path : Option String
deriving DecidableEq, Repr

/-- JavaScript truthiness of a `string | null` value: `null` and the empty
string are falsy. The source tests `currentVariant.path && !variant.path`. -/
def jsTruthy : Option String → Bool
  | none => false
  | some s => !(s == "")

/-- `${formatId ?? 'null'}` as the source renders one id into the key string. -/
def optIntToKey : Option Int → String
  | none => "null"
  | some n => toString n

/-- `getVariantKey`: the template string `formatId-formatPictureId`. -/
def getVariantKey (v : PictureVariant) : String :=
  optIntToKey v.formatId ++ "-" ++ optIntToKey v.formatPictureId

/-- A JavaScript `Map` as an insertion-ordered association list.
`Map.set` updates an existing key in place (keeping its position) and
otherwise appends at the end. -/
def mapSet {β : Type} (m : List (String × β)) (k : String) (v : β) : List (String × β) :=
  if m.any (fun kv => kv.1 == k) then
    m.map (fun kv => if kv.1 == k then (k, v) else kv)
  else
    m ++ [(k, v)]

/-- `Map.get`. -/
def mapGet {β : Type} (m : List (String × β)) (k : String) : Option β :=
  (m.find? (fun kv => kv.1 == k)).map (fun kv => kv.2)

/-- One iteration of the `for (const variant of allVariants)` loop of
`mergePictureVariants`. -/
def mergeStep (m : List (String × PictureVariant)) (variant : PictureVariant) :
    List (String × PictureVariant) :=
  match mapGet m (getVariantKey variant) with
  | none => mapSet m (getVariantKey variant) variant
  | some currentVariant =>
    if jsTruthy currentVariant.path && !jsTruthy variant.path then m
    else mapSet m (getVariantKey variant) variant

/-- `mergePictureVariants(existing, incoming)`: fold all variants into the
keyed map, then `Array.from(map.values())`. -/
def mergePictureVariants (existing incoming : List PictureVariant) : List PictureVariant :=
  ((existing ++ incoming).foldl mergeStep []).map (fun kv => kv.2)

/-! ### Proof infrastructure for the merge -/

/-- The per-key effect of one merge step on the value stored at that key. -/
def stepOpt (s : Option PictureVariant) (v : PictureVariant) : Option PictureVariant :=
  match s with
  | none => some v
  | some c => if jsTruthy c.path && !jsTruthy v.path then some c else some v

/-- Folding a list of same-key variants into the stored value. -/
def combineFold (s : Option PictureVariant) (l : List PictureVariant) : Option PictureVariant :=
  l.foldl stepOpt s

/-- Keys of the ordered map. -/
def keysOf {β : Type} (m : List (String × β)) : List String :=
  m.map (fun kv => kv.1)

theorem findKey_cons_of_neg {β : Type} {k : String} {hd : String × β} (tl : List (String × β))
    (h : ¬(hd.1 == k) = true) :
    (hd :: tl).find? (fun kv => kv.1 == k) = tl.find? (fun kv => kv.1 == k) :=
  @List.find?_cons_of_neg _ (fun kv => kv.1 == k) hd tl h

theorem findKey_cons_of_pos {β : Type} {k : String} {hd : String × β} (tl : List (String × β))
    (h : (hd.1 == k) = true) :
    (hd :: tl).find? (fun kv => kv.1 == k) = some hd :=
  @List.find?_cons_of_pos _ (fun kv => kv.1 == k) hd tl h

theorem find?_map_update {β : Type} (m : List (String × β)) (k : String) (v : β)
    (h : m.any (fun kv => kv.1 == k) = true) :
    (m.map (fun kv => if kv.1 == k then (k, v) else kv)).find? (fun kv => kv.1 == k) =
      some (k, v) := by
  induction m with
  | nil => simp at h
  | cons hd tl ih =>
    by_cases hhd : (hd.1 == k) = true
    · simp only [List.map_cons, if_pos hhd]
      exact findKey_cons_of_pos _ (by simp)
    · simp only [List.map_cons, if_neg hhd]
      rw [findKey_cons_of_neg _ hhd]
      simp only [List.any_cons, hhd, Bool.false_or] at h
      exact ih h

theorem find?_map_update_other {β : Type} (m : List (String × β)) (k k' : String) (v : β)
    (hne : k' ≠ k) :
    (m.map (fun kv => if kv.1 == k then (k, v) else kv)).find? (fun kv => kv.1 == k') =
      m.find? (fun kv => kv.1 == k') := by
  induction m with
  | nil => simp
  | cons hd tl ih =>
    by_cases hhd : (hd.1 == k) = true
    · have e1 : hd.1 = k := by simpa using hhd
      have h2 : ¬((k, v).1 == k') = true := by simpa using fun e => hne e.symm
      have h3 : ¬(hd.1 == k') = true := by simpa [e1] using fun e => hne e.symm
      simp only [List.map_cons, if_pos hhd]
      rw [findKey_cons_of_neg _ h2, findKey_cons_of_neg _ h3]
      exact ih
    · simp only [List.map_cons, if_neg hhd]
      by_cases hh' : (hd.1 == k') = true
      · rw [findKey_cons_of_pos _ hh', findKey_cons_of_pos _ hh']
      · rw [findKey_cons_of_neg _ hh', findKey_cons_of_neg _ hh']
        exact ih

theorem mapGet_mapSet_same {β : Type} (m : List (String × β)) (k : String) (v : β) :
    mapGet (mapSet m k v) k = some v := by
  unfold mapGet mapSet
  by_cases h : m.any (fun kv => kv.1 == k) = true
  · rw [if_pos h, find?_map_update m k v h]
    rfl
  · rw [if_neg h, List.find?_append]
    have hnone : m.find? (fun kv => kv.1 == k) = none := by
      rw [List.find?_eq_none]
      intro kv hkv hbeq
      exact h (List.any_eq_true.2 ⟨kv, hkv, hbeq⟩)
    rw [hnone]
    simp [List.find?]

theorem mapGet_mapSet_other {β : Type} (m : List (String × β)) (k k' : String) (v : β)
    (hne : k' ≠ k) : mapGet (mapSet m k v) k' = mapGet m k' := by
  unfold mapGet mapSet
  by_cases h : m.any (fun kv => kv.1 == k) = true
  · rw [if_pos h, find?_map_update_other m k k' v hne]
  · rw [if_neg h, List.find?_append]
    have : List.find? (fun kv => kv.1 == k') [(k, v)] = none := by
      simp [List.find?_eq_none, show ¬(k == k') = true by simpa using fun e => hne e.symm]
    rw [this]
    simp

theorem mapGet_eq_none_iff {β : Type} (m : List (String × β)) (k : String) :
    mapGet m k = none ↔ k ∉ keysOf m := by
  unfold mapGet keysOf
  rw [Option.map_eq_none', List.find?_eq_none]
  constructor
  · intro h hk
    obtain ⟨kv, hkv, hfst⟩ := List.mem_map.1 hk
    exact h kv hkv (by simp [hfst])
  · intro h kv hkv hbeq
    exact h (List.mem_map.2 ⟨kv, hkv, by simpa using hbeq⟩)

theorem mapGet_mergeStep (m : List (String × PictureVariant)) (v : PictureVariant) (k : String) :
    mapGet (mergeStep m v) k =
      if getVariantKey v = k then stepOpt (mapGet m k) v else mapGet m k := by
  unfold mergeStep
  by_cases hk : getVariantKey v = k
  · subst hk
    rw [if_pos rfl]
    cases hm : mapGet m (getVariantKey v) with
    | none => simp only [stepOpt, mapGet_mapSet_same]
    | some c =>
      simp only
      by_cases hc : (jsTruthy c.path && !jsTruthy v.path) = true
      · rw [if_pos hc, hm]
        simp [stepOpt, hc]
      · rw [if_neg hc, mapGet_mapSet_same]
        simp [stepOpt, hc]
  · rw [if_neg hk]
    cases hm : mapGet m (getVariantKey v) with
    | none => exact mapGet_mapSet_other m (getVariantKey v) k v (fun e => hk e.symm)
    | some c =>
      simp only
      by_cases hc : (jsTruthy c.path && !jsTruthy v.path) = true
      · rw [if_pos hc]
      · rw [if_neg hc]
        exact mapGet_mapSet_other m (getVariantKey v) k v (fun e => hk e.symm)

theorem mapGet_foldl_mergeStep (l : List PictureVariant)
    (m : List (String × PictureVariant)) (k : String) :
    mapGet (l.foldl mergeStep m) k =
      combineFold (mapGet m k) (l.filter (fun v => getVariantKey v == k)) := by
  induction l generalizing m with
  | nil => rfl
  | cons v l ih =>
    simp only [List.foldl_cons]
    rw [ih]
    by_cases hk : getVariantKey v = k
    · rw [mapGet_mergeStep, if_pos hk]
      have : (getVariantKey v == k) = true := by simpa using hk
      simp only [List.filter_cons, this]
      rfl
    · rw [mapGet_mergeStep, if_neg hk]
      have : ¬(getVariantKey v == k) = true := by simpa using hk
      simp only [List.filter_cons, this]
      simp

theorem keysOf_mapSet_mem {β : Type} (m : List (String × β)) (k : String) (v : β)
    (h : k ∈ keysOf m) : keysOf (mapSet m k v) = keysOf m := by
  unfold mapSet
  obtain ⟨kv, hkv, hfst⟩ := List.mem_map.1 h
  rw [if_pos (List.any_eq_true.2 ⟨kv, hkv, by simp [hfst]⟩)]
  unfold keysOf
  rw [List.map_map]
  apply List.map_congr_left
  intro kv hmem
  by_cases hb : (kv.1 == k) = true
  · simp only [Function.comp, hb, if_pos]
    exact (by simpa using hb : kv.1 = k).symm
  · simp [Function.comp, hb]

theorem keysOf_mapSet_not_mem {β : Type} (m : List (String × β)) (k : String) (v : β)
    (h : k ∉ keysOf m) : keysOf (mapSet m k v) = keysOf m ++ [k] := by
  unfold mapSet
  have hany : ¬ m.any (fun kv => kv.1 == k) = true := by
    intro hc
    obtain ⟨kv, hkv, hbeq⟩ := List.any_eq_true.1 hc
    exact h (List.mem_map.2 ⟨kv, hkv, by simpa using hbeq⟩)
  rw [if_neg hany]
  simp [keysOf]

theorem keysOf_mergeStep (m : List (String × PictureVariant)) (v : PictureVariant) :
    keysOf (mergeStep m v) =
      if getVariantKey v ∈ keysOf m then keysOf m else keysOf m ++ [getVariantKey v] := by
  unfold mergeStep
  by_cases hmem : getVariantKey v ∈ keysOf m
  · rw [if_pos hmem]
    cases hm : mapGet m (getVariantKey v) with
    | none => exact absurd hmem (by rwa [← mapGet_eq_none_iff])
    | some c =>
      simp only
      by_cases hc : (jsTruthy c.path && !jsTruthy v.path) = true
      · rw [if_pos hc]
      · rw [if_neg hc]
        exact keysOf_mapSet_mem m _ v hmem
  · rw [if_neg hmem]
    cases hm : mapGet m (getVariantKey v) with
    | none => exact keysOf_mapSet_not_mem m _ v hmem
    | some c => exact absurd ((mapGet_eq_none_iff m _).2 hmem) (by simp [hm])

/-- Well-formedness of the variant map: keys are distinct and each entry is
stored under the key of its own value. -/
def mapWF (m : List (String × PictureVariant)) : Prop :=
  (keysOf m).Nodup ∧ ∀ kv ∈ m, kv.1 = getVariantKey kv.2

theorem mapWF_nil : mapWF [] := ⟨List.nodup_nil, by intro kv h; cases h⟩

theorem mapWF_mapSet (m : List (String × PictureVariant)) (v : PictureVariant)
    (h : mapWF m) : mapWF (mapSet m (getVariantKey v) v) := by
  obtain ⟨hnd, hcons⟩ := h
  by_cases hmem : getVariantKey v ∈ keysOf m
  · refine ⟨by rwa [keysOf_mapSet_mem m _ v hmem], ?_⟩
    intro kv hkv
    unfold mapSet at hkv
    obtain ⟨kv0, hkv0, hfst⟩ := List.mem_map.1 hmem
    rw [if_pos (List.any_eq_true.2 ⟨kv0, hkv0, by simp [hfst]⟩)] at hkv
    obtain ⟨kv1, hkv1, heq⟩ := List.mem_map.1 hkv
    by_cases hb : (kv1.1 == getVariantKey v) = true
    · rw [if_pos hb] at heq
      rw [← heq]
    · rw [if_neg hb] at heq
      rw [← heq]
      exact hcons kv1 hkv1
  · refine ⟨?_, ?_⟩
    · rw [keysOf_mapSet_not_mem m _ v hmem]
      simpa [List.nodup_append] using ⟨hnd, fun hc => hmem hc⟩
    · intro kv hkv
      unfold mapSet at hkv
      have hany : ¬ m.any (fun kv => kv.1 == getVariantKey v) = true := by
        intro hc
        obtain ⟨kv0, hkv0, hbeq⟩ := List.any_eq_true.1 hc
        exact hmem (List.mem_map.2 ⟨kv0, hkv0, by simpa using hbeq⟩)
      rw [if_neg hany] at hkv
      rcases List.mem_append.1 hkv with hkv | hkv
      · exact hcons kv hkv
      · simp only [List.mem_singleton] at hkv
        rw [hkv]

theorem mapWF_mergeStep (m : List (String × PictureVariant)) (v : PictureVariant)
    (h : mapWF m) : mapWF (mergeStep m v) := by
  unfold mergeStep
  cases mapGet m (getVariantKey v) with
  | none => exact mapWF_mapSet m v h
  | some c =>
    simp only
    by_cases hc : (jsTruthy c.path && !jsTruthy v.path) = true
    · rwa [if_pos hc]
    · rw [if_neg hc]
      exact mapWF_mapSet m v h

theorem mapWF_foldl (l : List PictureVariant) (m : List (String × PictureVariant))
    (h : mapWF m) : mapWF (l.foldl mergeStep m) := by
  induction l generalizing m with
  | nil => exact h
  | cons v l ih => exact ih (mergeStep m v) (mapWF_mergeStep m v h)

theorem values_keys_eq (m : List (String × PictureVariant))
    (h : ∀ kv ∈ m, kv.1 = getVariantKey kv.2) :
    (m.map (fun kv => kv.2)).map getVariantKey = keysOf m := by
  unfold keysOf
  rw [List.map_map]
  apply List.map_congr_left
  intro kv hkv
  exact (h kv hkv).symm

/-- The merged variant list never contains two entries with the same key. -/
theorem merge_keys_nodup (existing incoming : List PictureVariant) :
    ((mergePictureVariants existing incoming).map getVariantKey).Nodup := by
  unfold mergePictureVariants
  obtain ⟨hnd, hcons⟩ := mapWF_foldl (existing ++ incoming) [] mapWF_nil
  rw [values_keys_eq _ hcons]
  exact hnd

/-! ### Per-key analysis of the fold -/

/-- Last element of the list whose path is truthy, if any. -/
def lastTruthy : List PictureVariant → Option PictureVariant
  | [] => none
  | v :: l =>
    match lastTruthy l with
    | some w => some w
    | none => if jsTruthy v.path then some v else none

/-- Last element of the list, if any. -/
def lastItem : List PictureVariant → Option PictureVariant
  | [] => none
  | v :: l =>
    match lastItem l with
    | some w => some w
    | none => some v

def truthyOpt : Option PictureVariant → Bool
  | none => false
  | some c => jsTruthy c.path

theorem stepOpt_of_truthy (s : Option PictureVariant) (v : PictureVariant)
    (hv : jsTruthy v.path = true) : stepOpt s v = some v := by
  cases s with
  | none => rfl
  | some c => simp [stepOpt, hv]

/-- Closed form of `combineFold`: the last truthy element wins; with no truthy
element a truthy seed survives, otherwise the last element (or the seed). -/
def combineSpec (s : Option PictureVariant) (l : List PictureVariant) : Option PictureVariant :=
  match lastTruthy l with
  | some w => some w
  | none =>
    if truthyOpt s then s
    else
      match lastItem l with
      | some w => some w
      | none => s

theorem combineFold_eq_spec (l : List PictureVariant) (s : Option PictureVariant) :
    combineFold s l = combineSpec s l := by
  induction l generalizing s with
  | nil =>
    cases hs : truthyOpt s <;> simp [combineFold, combineSpec, lastTruthy, lastItem, hs]
  | cons v l ih =>
    have hcons : combineFold s (v :: l) = combineFold (stepOpt s v) l := rfl
    rw [hcons, ih]
    unfold combineSpec
    cases hl : lastTruthy l with
    | some w => simp [lastTruthy, hl]
    | none =>
      cases hv : jsTruthy v.path with
      | true =>
        rw [stepOpt_of_truthy s v hv]
        simp [lastTruthy, hl, hv, truthyOpt]
      | false =>
        cases s with
        | none =>
          simp only [stepOpt, truthyOpt, hv, lastTruthy, hl, lastItem]
          cases hi : lastItem l <;> simp [truthyOpt, hv, hi]
        | some c =>
          cases hc : jsTruthy c.path with
          | true => simp [stepOpt, truthyOpt, hv, hc, lastTruthy, hl]
          | false =>
            simp only [stepOpt, truthyOpt, hv, hc, lastTruthy, hl, lastItem,
              Bool.false_and]
            cases hi : lastItem l <;> simp [truthyOpt, hv, hc, hi]

theorem lastTruthy_eq_none (l : List PictureVariant) (h : lastTruthy l = none) :
    ∀ v ∈ l, jsTruthy v.path = false := by
  induction l with
  | nil => intro v hv; cases hv
  | cons w l ih =>
    intro v hv
    have hl : lastTruthy l = none := by
      unfold lastTruthy at h
      cases hl2 : lastTruthy l with
      | some u => rw [hl2] at h; cases h
      | none => rfl
    have hw : jsTruthy w.path = false := by
      unfold lastTruthy at h
      rw [hl] at h
      by_cases hb : jsTruthy w.path = true
      · rw [if_pos hb] at h; cases h
      · simpa using hb
    rcases List.mem_cons.1 hv with hveq | hv2
    · rw [hveq]; exact hw
    · exact ih hl v hv2

theorem lastItem_mem (l : List PictureVariant) (w : PictureVariant)
    (h : lastItem l = some w) : w ∈ l := by
  induction l with
  | nil => cases h
  | cons v l ih =>
    unfold lastItem at h
    cases hl : lastItem l with
    | some u =>
      rw [hl] at h
      exact List.mem_cons_of_mem v (ih (h ▸ hl))
    | none =>
      rw [hl] at h
      cases h
      exact List.mem_cons_self _ _

/-- Refolding the same per-key list over its own result is a no-op. -/
theorem combineFold_idem (s : Option PictureVariant) (l : List PictureVariant) :
    combineFold (combineFold s l) l = combineFold s l := by
  rw [combineFold_eq_spec l s, combineFold_eq_spec l]
  unfold combineSpec
  cases hl : lastTruthy l with
  | some w => rfl
  | none =>
    cases hs : truthyOpt s with
    | true => simp [hs]
    | false =>
      simp only [hs, Bool.false_eq_true, if_false]
      cases hi : lastItem l with
      | some w =>
        have hw : jsTruthy w.path = false := lastTruthy_eq_none l hl w (lastItem_mem l w hi)
        simp [truthyOpt, hw]
      | none => simp [hs]

theorem combineFold_isSome (s : Option PictureVariant) (l : List PictureVariant)
    (h : l ≠ []) : (combineFold s l).isSome = true := by
  rw [combineFold_eq_spec]
  unfold combineSpec
  cases hl : lastTruthy l with
  | some w => rfl
  | none =>
    cases l with
    | nil => exact absurd rfl h
    | cons v t =>
      cases hs : truthyOpt s with
      | true =>
        cases s with
        | none => cases hs
        | some c => simp [hs]
      | false =>
        simp only [hs, Bool.false_eq_true, if_false]
        cases hi : lastItem (v :: t) with
        | some w => rfl
        | none =>
          unfold lastItem at hi
          cases h2 : lastItem t <;> rw [h2] at hi <;> cases hi

theorem key_mem_of_mem_foldl (l : List PictureVariant) (m : List (String × PictureVariant))
    (v : PictureVariant) (hv : v ∈ l) : getVariantKey v ∈ keysOf (l.foldl mergeStep m) := by
  by_contra hmem
  have hnone := (mapGet_eq_none_iff _ _).2 hmem
  rw [mapGet_foldl_mergeStep] at hnone
  have hfil : v ∈ l.filter (fun w => getVariantKey w == getVariantKey v) :=
    List.mem_filter.2 ⟨hv, by simp⟩
  have hne : l.filter (fun w => getVariantKey w == getVariantKey v) ≠ [] := by
    intro he
    rw [he] at hfil
    cases hfil
  have := combineFold_isSome (mapGet m (getVariantKey v)) _ hne
  rw [hnone] at this
  cases this

theorem keysOf_foldl_of_mem (l : List PictureVariant) (m : List (String × PictureVariant))
    (h : ∀ v ∈ l, getVariantKey v ∈ keysOf m) :
    keysOf (l.foldl mergeStep m) = keysOf m := by
  induction l generalizing m with
  | nil => rfl
  | cons v l ih =>
    simp only [List.foldl_cons]
    have hkeys : keysOf (mergeStep m v) = keysOf m := by
      rw [keysOf_mergeStep, if_pos (h v (List.mem_cons_self _ _))]
    rw [ih (mergeStep m v) (fun w hw => hkeys ▸ h w (List.mem_cons_of_mem v hw)), hkeys]

/-- Two ordered maps with the same ordered key list, distinct keys, and the
same lookups are equal. -/
theorem map_ext_of_keys {β : Type} (m1 m2 : List (String × β))
    (hk : keysOf m1 = keysOf m2) (hnd : (keysOf m1).Nodup)
    (hget : ∀ k, mapGet m1 k = mapGet m2 k) : m1 = m2 := by
  induction m1 generalizing m2 with
  | nil =>
    cases m2 with
    | nil => rfl
    | cons kv t => cases hk
  | cons kv1 t1 ih =>
    cases m2 with
    | nil => cases hk
    | cons kv2 t2 =>
      obtain ⟨k1, a⟩ := kv1
      obtain ⟨k2, b⟩ := kv2
      simp only [keysOf, List.map_cons, List.cons.injEq] at hk
      obtain ⟨hkk, htk⟩ := hk
      subst hkk
      have hab : a = b := by
        have := hget k1
        unfold mapGet at this
        rw [findKey_cons_of_pos _ (by simp), findKey_cons_of_pos _ (by simp)] at this
        simpa using this
      subst hab
      have hndt : (keysOf t1).Nodup := (List.nodup_cons.1 (by simpa [keysOf] using hnd)).2
      have hk1t : k1 ∉ keysOf t1 := (List.nodup_cons.1 (by simpa [keysOf] using hnd)).1
      have hteq : keysOf t1 = keysOf t2 := htk
      have hk1t2 : k1 ∉ keysOf t2 := by rw [← hteq]; exact hk1t
      refine congrArg _ (ih t2 (by simpa [keysOf] using htk) hndt ?_)
      intro k
      by_cases hkeq : k = k1
      · subst hkeq
        rw [(mapGet_eq_none_iff t1 k).2 hk1t, (mapGet_eq_none_iff t2 k).2 hk1t2]
      · have h1 := hget k
        unfold mapGet at h1 ⊢
        rw [findKey_cons_of_neg _ (by simpa using fun e => hkeq e.symm),
          findKey_cons_of_neg _ (by simpa using fun e => hkeq e.symm)] at h1
        exact h1

/-! ### Rebuilding and restabilising the map -/

theorem mapGet_append_of_not_mem {β : Type} (p q : List (String × β)) (k : String)
    (h : k ∉ keysOf p) : mapGet (p ++ q) k = mapGet q k := by
  unfold mapGet
  rw [List.find?_append]
  have hp : p.find? (fun kv => kv.1 == k) = none := by
    rw [List.find?_eq_none]
    intro kv hkv hbeq
    exact h (List.mem_map.2 ⟨kv, hkv, by simpa using hbeq⟩)
  rw [hp, Option.none_or]

theorem mapSet_append_of_not_mem {β : Type} (p q : List (String × β)) (k : String) (v : β)
    (h : k ∉ keysOf p) : mapSet (p ++ q) k v = p ++ mapSet q k v := by
  unfold mapSet
  have hpfalse : ∀ kv ∈ p, ¬(kv.1 == k) = true := by
    intro kv hkv hbeq
    exact h (List.mem_map.2 ⟨kv, hkv, by simpa using hbeq⟩)
  by_cases hq : q.any (fun kv => kv.1 == k) = true
  · have hpq : (p ++ q).any (fun kv => kv.1 == k) = true := by
      obtain ⟨kv, hkv, hbeq⟩ := List.any_eq_true.1 hq
      exact List.any_eq_true.2 ⟨kv, List.mem_append_right p hkv, hbeq⟩
    rw [if_pos hpq, if_pos hq, List.map_append]
    congr 1
    have : p.map (fun kv => if (kv.1 == k) = true then (k, v) else kv) = p.map id := by
      apply List.map_congr_left
      intro kv hkv
      rw [if_neg (hpfalse kv hkv), id]
    rw [this, List.map_id]
  · have hpq : ¬ (p ++ q).any (fun kv => kv.1 == k) = true := by
      intro hc
      obtain ⟨kv, hkv, hbeq⟩ := List.any_eq_true.1 hc
      rcases List.mem_append.1 hkv with hkv | hkv
      · exact hpfalse kv hkv hbeq
      · exact hq (List.any_eq_true.2 ⟨kv, hkv, hbeq⟩)
    rw [if_neg hpq, if_neg hq, List.append_assoc]

theorem mergeStep_append_of_not_mem (p q : List (String × PictureVariant))
    (v : PictureVariant) (h : getVariantKey v ∉ keysOf p) :
    mergeStep (p ++ q) v = p ++ mergeStep q v := by
  unfold mergeStep
  rw [mapGet_append_of_not_mem p q _ h]
  cases mapGet q (getVariantKey v) with
  | none => exact mapSet_append_of_not_mem p q _ v h
  | some c =>
    simp only
    by_cases hc : (jsTruthy c.path && !jsTruthy v.path) = true
    · rw [if_pos hc, if_pos hc]
    · rw [if_neg hc, if_neg hc]
      exact mapSet_append_of_not_mem p q _ v h

theorem foldl_mergeStep_keepLeft (l : List PictureVariant)
    (p q : List (String × PictureVariant)) (h : ∀ v ∈ l, getVariantKey v ∉ keysOf p) :
    l.foldl mergeStep (p ++ q) = p ++ l.foldl mergeStep q := by
  induction l generalizing q with
  | nil => rfl
  | cons v l ih =>
    simp only [List.foldl_cons]
    rw [mergeStep_append_of_not_mem p q v (h v (List.mem_cons_self _ _))]
    exact ih (mergeStep q v) (fun w hw => h w (List.mem_cons_of_mem v hw))

/-- Folding the values of a well-formed map from scratch rebuilds the map. -/
theorem foldl_values_rebuild (m : List (String × PictureVariant)) (h : mapWF m) :
    (m.map (fun kv => kv.2)).foldl mergeStep [] = m := by
  induction m with
  | nil => rfl
  | cons kv t ih =>
    obtain ⟨hnd, hcons⟩ := h
    obtain ⟨k, a⟩ := kv
    have hka : k = getVariantKey a := hcons (k, a) (List.mem_cons_self _ _)
    have hknotin : k ∉ keysOf t := (List.nodup_cons.1 (by simpa [keysOf] using hnd)).1
    have hstep : mergeStep [] a = [(k, a)] := by
      unfold mergeStep mapGet mapSet
      simp [← hka]
    simp only [List.map_cons, List.foldl_cons, hstep]
    have hpre : ∀ v ∈ t.map (fun kv => kv.2), getVariantKey v ∉ keysOf [(k, a)] := by
      intro v hv
      obtain ⟨kv2, hkv2, rfl⟩ := List.mem_map.1 hv
      have : kv2.1 = getVariantKey kv2.2 := hcons kv2 (List.mem_cons_of_mem _ hkv2)
      simp only [keysOf, List.map_cons, List.map_nil, List.mem_singleton]
      rw [← this]
      intro he
      exact hknotin (he ▸ List.mem_map.2 ⟨kv2, hkv2, rfl⟩)
    have := foldl_mergeStep_keepLeft (t.map (fun kv => kv.2)) [(k, a)] [] hpre
    rw [List.append_nil] at this
    rw [this, ih ⟨(List.nodup_cons.1 (by simpa [keysOf] using hnd)).2,
      fun kv2 hkv2 => hcons kv2 (List.mem_cons_of_mem _ hkv2)⟩]
    rfl

/-- Refolding `incoming` over the merged map leaves the map unchanged. -/
theorem foldl_incoming_stable (existing incoming : List PictureVariant) :
    incoming.foldl mergeStep ((existing ++ incoming).foldl mergeStep []) =
      (existing ++ incoming).foldl mergeStep [] := by
  set M := (existing ++ incoming).foldl mergeStep [] with hM
  have hWF : mapWF M := mapWF_foldl _ [] mapWF_nil
  have hmem : ∀ v ∈ incoming, getVariantKey v ∈ keysOf M := by
    intro v hv
    exact key_mem_of_mem_foldl _ [] v (List.mem_append_right existing hv)
  apply map_ext_of_keys
  · exact keysOf_foldl_of_mem incoming M hmem
  · rw [keysOf_foldl_of_mem incoming M hmem]
    exact hWF.1
  · intro k
    rw [mapGet_foldl_mergeStep, hM, mapGet_foldl_mergeStep]
    have happ : ∀ (s : Option PictureVariant) (a b : List PictureVariant),
        combineFold s (a ++ b) = combineFold (combineFold s a) b := by
      intro s a b
      unfold combineFold
      rw [List.foldl_append]
    rw [List.filter_append, happ]
    exact combineFold_idem _ _

/-! ### Lookup characterisation of the merge -/

/-- First variant in the list carrying the given identity key. -/
def lookupVariant (l : List PictureVariant) (k : String) : Option PictureVariant :=
  l.find? (fun v => getVariantKey v == k)

/-- The winner for one identity key under the merge rule, with JS truthiness
on `path`. -/
def winnerOpt (e i : Option PictureVariant) : Option PictureVariant :=
  match e, i with
  | none, i => i
  | some ev, none => some ev
  | some ev, some iv => some (if jsTruthy ev.path && !jsTruthy iv.path then ev else iv)

theorem lookup_values_eq_mapGet (m : List (String × PictureVariant))
    (h : ∀ kv ∈ m, kv.1 = getVariantKey kv.2) (k : String) :
    lookupVariant (m.map (fun kv => kv.2)) k = mapGet m k := by
  induction m with
  | nil => rfl
  | cons kv t ih =>
    have hkv : kv.1 = getVariantKey kv.2 := h kv (List.mem_cons_self _ _)
    unfold lookupVariant mapGet
    by_cases hb : (getVariantKey kv.2 == k) = true
    · rw [List.map_cons,
        @List.find?_cons_of_pos _ (fun v => getVariantKey v == k) _ _ hb,
        findKey_cons_of_pos _ (by rw [hkv]; exact hb)]
      rfl
    · rw [List.map_cons,
        @List.find?_cons_of_neg _ (fun v => getVariantKey v == k) _ _ hb,
        findKey_cons_of_neg _ (by rw [hkv]; exact hb)]
      exact ih (fun kv2 hkv2 => h kv2 (List.mem_cons_of_mem _ hkv2))

theorem filter_key_eq_toList (l : List PictureVariant) (k : String)
    (hnd : (l.map getVariantKey).Nodup) :
    l.filter (fun v => getVariantKey v == k) = (lookupVariant l k).toList := by
  induction l with
  | nil => rfl
  | cons v t ih =>
    rw [List.map_cons] at hnd
    have hnd2 := List.nodup_cons.1 hnd
    unfold lookupVariant
    by_cases hb : (getVariantKey v == k) = true
    · rw [List.filter_cons, if_pos hb,
        @List.find?_cons_of_pos _ (fun v => getVariantKey v == k) _ _ hb]
      have hkeq : getVariantKey v = k := by simpa using hb
      have htail : t.filter (fun w => getVariantKey w == k) = [] := by
        rw [List.filter_eq_nil_iff]
        intro w hw hbw
        have hwk : getVariantKey w = getVariantKey v := by
          rw [(by simpa using hbw : getVariantKey w = k), hkeq]
        exact hnd2.1 (List.mem_map.2 ⟨w, hw, hwk⟩)
      rw [htail]
      rfl
    · rw [List.filter_cons, if_neg hb,
        @List.find?_cons_of_neg _ (fun v => getVariantKey v == k) _ _ hb]
      exact ih hnd2.2

theorem combineFold_toList (e i : Option PictureVariant) :
    combineFold none (e.toList ++ i.toList) = winnerOpt e i := by
  cases e with
  | none => cases i <;> rfl
  | some ev =>
    cases i with
    | none => rfl
    | some iv =>
      by_cases hc : (jsTruthy ev.path && !jsTruthy iv.path) = true
      · simp [combineFold, stepOpt, winnerOpt, hc]
      · simp [combineFold, stepOpt, winnerOpt, hc]

/-! ### Claim theorems: variant merge (C4, C5) -/

/-- The concrete variants of the counterexample: an empty-string path on the
existing side against a null path on the incoming side. -/
def cexEmptyPath : PictureVariant :=
  { formatId := some 85, formatPictureId := some 100, width := none, height := none,
    path := some "" }

def cexNullPath : PictureVariant :=
  { formatId := some 85, formatPictureId := some 100, width := none, height := none,
    path := none }

/-- C4 counterexample: the existing entry has a non-null (but empty) path and
the incoming entry has a null path, yet the merge keeps the incoming entry —
the source tests JS truthiness of `path`, not nullness. -/
theorem mergePictureVariants_nonnull_counterexample :
    mergePictureVariants [cexEmptyPath] [cexNullPath] = [cexNullPath] ∧
      cexEmptyPath.path ≠ none ∧ cexNullPath.path = none := by
  refine ⟨?_, by simp [cexEmptyPath], rfl⟩
  rfl

/-- C4 (amended to JS truthiness): merging variant lists with per-list unique
identities yields exactly one entry per identity present in either input; per
identity the entry with a truthy (non-null, non-empty) path is kept when
exactly one side has one, otherwise the incoming entry wins; the claimed
concrete instance with paths `"a"` and `null` keeps path `"a"`. -/
theorem mergePictureVariants_winner (existing incoming : List PictureVariant)
    (hex : (existing.map getVariantKey).Nodup)
    (hinc : (incoming.map getVariantKey).Nodup) :
    (∀ k, lookupVariant (mergePictureVariants existing incoming) k =
        winnerOpt (lookupVariant existing k) (lookupVariant incoming k)) ∧
      ((mergePictureVariants existing incoming).map getVariantKey).Nodup ∧
      mergePictureVariants
          [{ formatId := some 85, formatPictureId := some 100, width := none, height := none,
             path := some "a" }]
          [cexNullPath] =
        [{ formatId := some 85, formatPictureId := some 100, width := none, height := none,
           path := some "a" }] := by
  refine ⟨?_, merge_keys_nodup existing incoming, by rfl⟩
  intro k
  have hWF := mapWF_foldl (existing ++ incoming) [] mapWF_nil
  unfold mergePictureVariants
  rw [lookup_values_eq_mapGet _ hWF.2 k, mapGet_foldl_mergeStep, List.filter_append,
    filter_key_eq_toList existing k hex, filter_key_eq_toList incoming k hinc]
  exact combineFold_toList _ _

/-- C4 witness instance. -/
theorem mergePictureVariants_winner_witness :
    (([cexEmptyPath].map getVariantKey).Nodup ∧ ([cexNullPath].map getVariantKey).Nodup) ∧
      lookupVariant (mergePictureVariants [cexEmptyPath] [cexNullPath]) "85-100" =
        winnerOpt (lookupVariant [cexEmptyPath] "85-100")
          (lookupVariant [cexNullPath] "85-100") :=
  ⟨⟨List.nodup_singleton _, List.nodup_singleton _⟩,
    (mergePictureVariants_winner [cexEmptyPath] [cexNullPath]
      (List.nodup_singleton _) (List.nodup_singleton _)).1 "85-100"⟩

/-- C5: variant merge is idempotent — re-merging the already merged list with
the same incoming list changes nothing, for all variant lists. -/
theorem mergePictureVariants_idem (existing incoming : List PictureVariant) :
    mergePictureVariants (mergePictureVariants existing incoming) incoming =
      mergePictureVariants existing incoming := by
  unfold mergePictureVariants
  have hWF : mapWF ((existing ++ incoming).foldl mergeStep []) :=
    mapWF_foldl _ [] mapWF_nil
  rw [List.foldl_append, foldl_values_rebuild _ hWF,
    foldl_incoming_stable existing incoming]

/-! ## The pictures transform (profiles/pictures/transform.ts) -/

/-- The CMS image type enum. -/
inductive ImageType where
  | IMAGE_JPEG
  | IMAGE_GIF
  | IMAGE_PNG
deriving DecidableEq, Repr

/-- One parsed DynamoDB row (parse.ts). Optional numeric fields collapse the
JS `undefined`/`null` distinction into `none`. -/
structure DynamoRow where
  id : String
  pictureId : Int
  languageId : Int
  url : String
  caption : String
  agencyId : Int
  formatId : Int
  formatPictureId : Option Int
  originalWidth : Option Int
  originalHeight : Option Int
  x : Option Int
  y : Option Int
deriving DecidableEq, Repr

/-- `netsportLanguageIdMap` (inlined domain constants). -/
def netsportLanguageIdMap : Int → Option String
  | 0 => some "en"
  | 1 => some "de"
  | 3 => some "fr"
  | 4 => some "it"
  | 5 => some "nl"
  | 6 => some "es"
  | 9 => some "tr"
  | 11 => some "da"
  | 13 => some "nb"
  | 14 => some "pl"
  | 15 => some "ru"
  | 16 => some "ro"
  | 17 => some "hu"
  | _ => none

def NAMESPACE : String := "6ba7b810-9dad-11d1-80b4-00c04fd430c8"

def FORMAT_85_ID : Int := 85

/-- `KNOWN_FORMAT_DIMENSIONS` lookup: `(width, height)` per known format. -/
def KNOWN_FORMAT_DIMENSIONS : Int → Option (Int × Int)
  | 85 => some (2560, 1440)
  | 72 => some (640, 480)
  | 68 => some (310, 310)
  | _ => none

/-- Modelled boundary of the external `uuid` library: `uuidv5(name, ns)` is
an opaque deterministic function of its inputs. -/
def uuidv5 (name ns : String) : String := ns ++ ":" ++ name

/-- Modelled boundary of `new Date()`: time is irrelevant to the verified
properties, so a `Date` carries no data. -/
structure DateStamp where
deriving DecidableEq, Repr

def getImageTypeFromExtension (path : String) : ImageType :=
  match (path.splitOn ".").getLast? with
  | none => ImageType.IMAGE_JPEG
  | some e =>
    match e.toLower with
    | "jpg" => ImageType.IMAGE_JPEG
    | "jpeg" => ImageType.IMAGE_JPEG
    | "png" => ImageType.IMAGE_PNG
    | "gif" => ImageType.IMAGE_GIF
    | _ => ImageType.IMAGE_JPEG

/-- `url.replace(/^\/img\//, '')`. -/
def stripImgPrefix (url : String) : String :=
  if url.startsWith "/img/" then url.drop 5 else url

/-- `getFileExtension`: empty string when there is no dot, otherwise the last
dot-separated part preceded by a dot. -/
def getFileExtension (picturePath : String) : String :=
  let picturePathParts := picturePath.splitOn "."
  if picturePathParts.length ≤ 1 then ""
  else "." ++ picturePathParts.getLastD ""

def buildVariantPath (picturePath : String) (formatPictureId formatId : Int) :
    Option String :=
  match KNOWN_FORMAT_DIMENSIONS formatId with
  | none => none
  | some dims =>
    let extension := getFileExtension picturePath
    if extension = "" then none
    else
      let picturePathWithoutExtension :=
        picturePath.take (picturePath.length - extension.length)
      some (picturePathWithoutExtension ++ "-" ++ toString formatPictureId ++ "-" ++
        toString dims.1 ++ "-" ++ toString dims.2 ++ extension)

def buildPictureVariantFromRow (row : DynamoRow) : PictureVariant :=
  match row.formatPictureId with
  | none =>
    { formatId := some row.formatId, formatPictureId := none,
      width := none, height := none, path := none }
  | some formatPictureId =>
    let picturePath := stripImgPrefix row.url
    let variantPath := buildVariantPath picturePath formatPictureId row.formatId
    match variantPath, KNOWN_FORMAT_DIMENSIONS row.formatId with
    | some vp, some dims =>
      { formatId := some row.formatId, formatPictureId := some formatPictureId,
        width := some dims.1, height := some dims.2, path := some vp }
    | _, _ =>
      { formatId := some row.formatId, formatPictureId := some formatPictureId,
        width := none, height := none, path := none }

/-- `buildDescriptionI18n`: locale map built in row order (JS object insertion
semantics modelled by `mapSet`), with the `en` baseline defaulted to the empty
string when absent or falsy. -/
def buildDescriptionI18n (rows : List DynamoRow) : List (String × String) :=
  let descriptions := rows.foldl
    (fun d row =>
      match netsportLanguageIdMap row.languageId with
      | none => d
      | some languageId =>
        if row.caption = "" then d
        else mapSet d languageId row.caption)
    []
  if jsTruthy (mapGet descriptions "en") then descriptions
  else mapSet descriptions "en" ""

def findOriginalDimensions (rows : List DynamoRow) : Option Int × Option Int :=
  match rows.find? (fun row => row.originalWidth.isSome && row.originalHeight.isSome) with
  | some row => (row.originalWidth, row.originalHeight)
  | none => (none, none)

/-- One record to upsert into the `picture` table. -/
structure PictureInsert where
  id : Int
  uuid : String
  path : String
  imageType : ImageType
  description_i18n : List (String × String)
  agencyId : Int
  focalPointX : Option Int
  focalPointY : Option Int
  width : Option Int
  height : Option Int
  crops : String
  taxonomy : String
  type : String
  createdBy : String
  createdAt : DateStamp
  updatedAt : DateStamp
  variants : List PictureVariant
deriving DecidableEq, Repr

def buildPictureFromRow (primaryRow : DynamoRow) (allRows : List DynamoRow) : PictureInsert :=
  let pictureId := primaryRow.pictureId
  let descriptionI18n := buildDescriptionI18n allRows
  let path := stripImgPrefix primaryRow.url
  let variants := mergePictureVariants [] (allRows.map buildPictureVariantFromRow)
  let dims := findOriginalDimensions allRows
  { id := pictureId
    uuid := uuidv5 (toString pictureId) NAMESPACE
    path := path
    imageType := getImageTypeFromExtension path
    description_i18n := descriptionI18n
    agencyId := primaryRow.agencyId
    focalPointX := none
    focalPointY := none
    width := dims.1
    height := dims.2
    crops := "[]"
    taxonomy := "[]"
    type := "MEDIA"
    createdBy := "migration-script"
    createdAt := {}
    updatedAt := {}
    variants := variants }

/-- `buildPictureFromDynamoRows`: throws on an empty group, otherwise prefers
the format-85 row as primary and falls back to the first row. -/
def buildPictureFromDynamoRows (rows : List DynamoRow) : Except String PictureInsert :=
  match rows with
  | [] => Except.error "Cannot build picture from empty rows array"
  | first :: _ =>
    match rows.find? (fun r => r.formatId == FORMAT_85_ID) with
    | none => Except.ok (buildPictureFromRow first rows)
    | some primaryRow => Except.ok (buildPictureFromRow primaryRow rows)

/-! ### Claim theorems: transform (C8, C10) -/

/-- A sample parsed row used to instantiate hypotheses. -/
def sampleRow : DynamoRow :=
  { id := "1-6-68", pictureId := 1, languageId := 6, url := "/img/2013/07/11/1.jpg",
    caption := "caption", agencyId := 227, formatId := 68, formatPictureId := some 7,
    originalWidth := none, originalHeight := none, x := none, y := none }

/-- C8: for every non-empty row group, the variants of the produced record
contain no two entries with the same `(formatId, formatPictureId)` identity. -/
theorem transform_variant_identity_nodup (rows : List DynamoRow) (pic : PictureInsert)
    (hne : rows ≠ []) (hok : buildPictureFromDynamoRows rows = Except.ok pic) :
    (pic.variants.map (fun v => (v.formatId, v.formatPictureId))).Nodup := by
  have hvar : pic.variants =
      mergePictureVariants [] (rows.map buildPictureVariantFromRow) := by
    cases rows with
    | nil => exact absurd rfl hne
    | cons first rest =>
      unfold buildPictureFromDynamoRows at hok
      cases hfind : (first :: rest).find? (fun r => r.formatId == FORMAT_85_ID) with
      | none =>
        rw [hfind] at hok
        cases hok
        rfl
      | some primaryRow =>
        rw [hfind] at hok
        cases hok
        rfl
  have hkeys := merge_keys_nodup [] (rows.map buildPictureVariantFromRow)
  rw [← hvar] at hkeys
  have hfact : pic.variants.map getVariantKey =
      (pic.variants.map (fun v => (v.formatId, v.formatPictureId))).map
        (fun p => optIntToKey p.1 ++ "-" ++ optIntToKey p.2) := by
    rw [List.map_map]
    rfl
  rw [hfact] at hkeys
  exact hkeys.of_map _

/-- C8 witness instance. -/
theorem transform_variant_identity_nodup_witness :
    ([sampleRow] ≠ [] ∧
        buildPictureFromDynamoRows [sampleRow] =
          Except.ok (buildPictureFromRow sampleRow [sampleRow])) ∧
      (((buildPictureFromRow sampleRow [sampleRow]).variants.map
          (fun v => (v.formatId, v.formatPictureId))).Nodup) :=
  ⟨⟨by simp, by rfl⟩,
    transform_variant_identity_nodup [sampleRow] (buildPictureFromRow sampleRow [sampleRow])
      (by simp) (by rfl)⟩

/-- C10: the transform throws exactly on the empty group (with the source's
message) and succeeds on every non-empty group. -/
theorem transform_empty_error (rows : List DynamoRow) (hne : rows ≠ []) :
    buildPictureFromDynamoRows [] =
        Except.error "Cannot build picture from empty rows array" ∧
      ∃ pic, buildPictureFromDynamoRows rows = Except.ok pic := by
  refine ⟨rfl, ?_⟩
  cases rows with
  | nil => exact absurd rfl hne
  | cons first rest =>
    unfold buildPictureFromDynamoRows
    cases hfind : (first :: rest).find? (fun r => r.formatId == FORMAT_85_ID) with
    | none => exact ⟨_, rfl⟩
    | some primaryRow => exact ⟨_, rfl⟩

/-- C10 witness instance. -/
theorem transform_empty_error_witness :
    ([sampleRow] ≠ []) ∧
      (buildPictureFromDynamoRows [] =
          Except.error "Cannot build picture from empty rows array" ∧
        ∃ pic, buildPictureFromDynamoRows [sampleRow] = Except.ok pic) :=
  ⟨by simp, transform_empty_error [sampleRow] (by simp)⟩

/-! ## Binary-split batch retry (engine/batch.ts) -/

/-- `insertWithRetry` with an explicit recursion-fuel parameter: the source
recursion has no built-in depth bound, so exhausted fuel (`none`) models
divergence. The result pairs the returned count with the list of items that
were logged and skipped at batch size one. Failure of the injected insert
function is `none`. -/
def insertWithRetry {T : Type} (insertFn : List T → Option Nat) :
    Nat → List T → Option (Nat × List T)
  | 0, _ => none
  | fuel + 1, items =>
    match insertFn items with
    | some n => some (n, [])
    | none =>
      if items.length = 1 then some (0, items)
      else
        let mid := (items.length + 1) / 2
        match insertWithRetry insertFn fuel (items.take mid),
            insertWithRetry insertFn fuel (items.drop mid) with
        | some leftRes, some rightRes =>
          some (leftRes.1 + rightRes.1, leftRes.2 ++ rightRes.2)
        | _, _ => none

theorem insertWithRetry_success {T : Type} (insertFn : List T → Option Nat)
    (items : List T) (n fuel : Nat) (hfn : insertFn items = some n) (hfuel : 1 ≤ fuel) :
    insertWithRetry insertFn fuel items = some (n, []) := by
  cases fuel with
  | zero => cases hfuel
  | succ f =>
    unfold insertWithRetry
    rw [hfn]

/-- The insert function that fails exactly on sub-batches containing the
designated item `t`, and otherwise reports the sub-batch length. -/
def failOn {T : Type} [DecidableEq T] (t : T) (batch : List T) : Option Nat :=
  if t ∈ batch then none else some batch.length

theorem insertWithRetry_fail_single {T : Type} (insertFn : List T → Option Nat)
    (items : List T) (f : Nat) (hfn : insertFn items = none) (h1 : items.length = 1) :
    insertWithRetry insertFn (f + 1) items = some (0, items) := by
  conv_lhs => unfold insertWithRetry
  simp [hfn, h1]

theorem insertWithRetry_fail_split {T : Type} (insertFn : List T → Option Nat)
    (items : List T) (f : Nat) (hfn : insertFn items = none) (h1 : items.length ≠ 1) :
    insertWithRetry insertFn (f + 1) items =
      match insertWithRetry insertFn f (items.take ((items.length + 1) / 2)),
          insertWithRetry insertFn f (items.drop ((items.length + 1) / 2)) with
      | some leftRes, some rightRes =>
        some (leftRes.1 + rightRes.1, leftRes.2 ++ rightRes.2)
      | _, _ => none := by
  conv_lhs => unfold insertWithRetry
  simp [hfn, h1]

theorem insertWithRetry_isolate {T : Type} [DecidableEq T] (t : T) :
    ∀ (fuel : Nat) (items : List T), items.count t = 1 → items.length ≤ fuel →
      insertWithRetry (failOn t) fuel items = some (items.length - 1, [t]) := by
  intro fuel
  induction fuel with
  | zero =>
    intro items hcount hlen
    have : items = [] := List.length_eq_zero.1 (Nat.le_zero.1 hlen)
    rw [this] at hcount
    cases hcount
  | succ f ih =>
    intro items hcount hlen
    have hmem : t ∈ items := by
      have : 0 < items.count t := by omega
      exact List.count_pos_iff.1 this
    have hfail : failOn t items = none := by unfold failOn; rw [if_pos hmem]
    by_cases h1 : items.length = 1
    · rw [insertWithRetry_fail_single (failOn t) items f hfail h1]
      obtain ⟨x, hx⟩ := List.length_eq_one.1 h1
      subst hx
      have hx2 : t = x := List.mem_singleton.1 hmem
      subst hx2
      rfl
    · rw [insertWithRetry_fail_split (failOn t) items f hfail h1]
      have hlen2 : 2 ≤ items.length := by
        have := List.length_pos_of_mem hmem
        omega
      have hsplit : items.take ((items.length + 1) / 2) ++
          items.drop ((items.length + 1) / 2) = items := List.take_append_drop _ _
      have hcount2 : (items.take ((items.length + 1) / 2)).count t +
          (items.drop ((items.length + 1) / 2)).count t = 1 := by
        rw [← List.count_append, hsplit]
        exact hcount
      have hlt : (items.take ((items.length + 1) / 2)).length = (items.length + 1) / 2 := by
        rw [List.length_take]
        omega
      have hld : (items.drop ((items.length + 1) / 2)).length =
          items.length - (items.length + 1) / 2 := List.length_drop _ _
      rcases Nat.eq_zero_or_pos ((items.take ((items.length + 1) / 2)).count t) with hz | hp
      · -- the designated item is in the right half
        have hcr : (items.drop ((items.length + 1) / 2)).count t = 1 := by omega
        have hnotmem : t ∉ items.take ((items.length + 1) / 2) := by
          intro hc
          have := List.count_pos_iff.2 hc
          omega
        have hleft := insertWithRetry_success (failOn t) (items.take ((items.length + 1) / 2))
          _ f (by unfold failOn; rw [if_neg hnotmem]) (by omega)
        have hright := ih (items.drop ((items.length + 1) / 2)) hcr (by omega)
        rw [hlt] at hleft
        rw [hld] at hright
        rw [hleft, hright]
        have harith : (items.length + 1) / 2 + (items.length - (items.length + 1) / 2 - 1) =
            items.length - 1 := by omega
        simp only [List.nil_append, harith]
      · -- the designated item is in the left half
        have hcl : (items.take ((items.length + 1) / 2)).count t = 1 := by omega
        have hnotmem : t ∉ items.drop ((items.length + 1) / 2) := by
          intro hc
          have := List.count_pos_iff.2 hc
          omega
        have hleft := ih (items.take ((items.length + 1) / 2)) hcl (by omega)
        have hright := insertWithRetry_success (failOn t) (items.drop ((items.length + 1) / 2))
          _ f (by unfold failOn; rw [if_neg hnotmem]) (by omega)
        rw [hlt] at hleft
        rw [hld] at hright
        rw [hleft, hright]
        have harith : (items.length + 1) / 2 - 1 + (items.length - (items.length + 1) / 2) =
            items.length - 1 := by omega
        simp only [List.singleton_append, harith]

/-- C3: for every batch of 8 distinct records and every index k, with the
injected insert function failing exactly on sub-batches containing the record
at index k, `insertWithRetry` returns 7 and logs exactly one single-item skip,
identifying that record. -/
theorem insertWithRetry_isolates_eighth {T : Type} [DecidableEq T]
    (xs : List T) (h8 : xs.length = 8) (hnd : xs.Nodup) (k : Nat) (hk : k < 8)
    (fuel : Nat) (hfuel : 8 ≤ fuel) :
    insertWithRetry (failOn (xs.get ⟨k, by omega⟩)) fuel xs =
      some (7, [xs.get ⟨k, by omega⟩]) := by
  have hmem : xs.get ⟨k, by omega⟩ ∈ xs := xs.get_mem k _
  have hcount : xs.count (xs.get ⟨k, by omega⟩) = 1 :=
    List.count_eq_one_of_mem hnd hmem
  have hres := insertWithRetry_isolate (xs.get ⟨k, by omega⟩) fuel xs hcount (by omega)
  have harith : xs.length - 1 = 7 := by omega
  rw [harith] at hres
  exact hres

/-- C3 witness instance: batch `[0,…,7]`, failing index 5. -/
theorem insertWithRetry_isolates_eighth_witness :
    (([0, 1, 2, 3, 4, 5, 6, 7] : List Nat).length = 8 ∧
        ([0, 1, 2, 3, 4, 5, 6, 7] : List Nat).Nodup ∧ (5 : Nat) < 8 ∧ (8 : Nat) ≤ 8) ∧
      insertWithRetry (failOn (5 : Nat)) 8 [0, 1, 2, 3, 4, 5, 6, 7] = some (7, [5]) :=
  ⟨⟨by decide, by decide, by decide, by decide⟩,
    insertWithRetry_isolates_eighth [0, 1, 2, 3, 4, 5, 6, 7] (by decide) (by decide)
      5 (by decide) 8 (by decide)⟩

/-- C6 counterexample: on the empty batch with an always-failing insert
function, `insertWithRetry` splits `[]` into `[] + []` forever — no recursion
fuel ever suffices, so the empty batch is not a base case and the function
does not terminate there. -/
theorem insertWithRetry_empty_diverges :
    ¬ ∃ fuel : Nat,
      (insertWithRetry (fun _ => (none : Option Nat)) fuel ([] : List Nat)).isSome = true := by
  rintro ⟨fuel, hsome⟩
  induction fuel with
  | zero => cases hsome
  | succ f ih =>
    apply ih
    unfold insertWithRetry at hsome
    simp only [List.length_nil, List.take_nil, List.drop_nil] at hsome
    cases hrec : insertWithRetry (fun _ => (none : Option Nat)) f ([] : List Nat) with
    | none => simp [hrec] at hsome
    | some r => rfl

theorem insertWithRetry_depth_aux {T : Type} (insertFn : List T → Option Nat) :
    ∀ (n : Nat) (items : List T), items.length = n → items ≠ [] →
      ∀ fuel, Nat.clog 2 items.length + 1 ≤ fuel →
      (insertWithRetry insertFn fuel items).isSome = true := by
  intro n
  induction n using Nat.strong_induction_on with
  | _ n ih =>
    intro items hn hne fuel hfuel
    rw [hn] at hfuel
    have hpos : 1 ≤ n := by
      cases items with
      | nil => exact absurd rfl hne
      | cons a l => rw [← hn]; simp
    obtain ⟨f, rfl⟩ : ∃ f, fuel = f + 1 := by
      cases fuel with
      | zero => omega
      | succ f => exact ⟨f, rfl⟩
    cases hfn : insertFn items with
    | some m =>
      rw [insertWithRetry_success insertFn items m (f + 1) hfn (by omega)]
      rfl
    | none =>
      by_cases h1 : items.length = 1
      · rw [insertWithRetry_fail_single insertFn items f hfn h1]
        rfl
      · rw [insertWithRetry_fail_split insertFn items f hfn h1]
        have hn2 : 2 ≤ n := by omega
        have hclog : Nat.clog 2 n = Nat.clog 2 ((n + 2 - 1) / 2) + 1 :=
          Nat.clog_of_two_le (by omega) hn2
        have hclog2 : Nat.clog 2 n = Nat.clog 2 ((n + 1) / 2) + 1 := by
          rw [hclog]
          norm_num
        have hlt : (items.take ((items.length + 1) / 2)).length = (n + 1) / 2 := by
          rw [List.length_take, hn]
          omega
        have hld : (items.drop ((items.length + 1) / 2)).length = n - (n + 1) / 2 := by
          rw [List.length_drop, hn]
        have hleft := ih ((n + 1) / 2) (by omega) (items.take ((items.length + 1) / 2))
          hlt (by intro hc; rw [hc] at hlt; simp at hlt; omega) f
          (by rw [hlt]; omega)
        have hright := ih (n - (n + 1) / 2) (by omega) (items.drop ((items.length + 1) / 2))
          hld (by intro hc; rw [hc] at hld; simp at hld; omega) f
          (by
            rw [hld]
            have hmono : Nat.clog 2 (n - (n + 1) / 2) ≤ Nat.clog 2 ((n + 1) / 2) :=
              Nat.clog_mono_right 2 (by omega)
            omega)
        cases hL : insertWithRetry insertFn f (items.take ((items.length + 1) / 2)) with
        | none => rw [hL] at hleft; cases hleft
        | some lres =>
          cases hR : insertWithRetry insertFn f (items.drop ((items.length + 1) / 2)) with
          | none => rw [hR] at hright; cases hright
          | some rres => rfl

/-- C6 (amended to non-empty batches): for every non-empty batch and every
injected insert function (including always-failing ones), `insertWithRetry`
terminates with recursion depth at most `⌈log₂ batchSize⌉`: fuel
`⌈log₂ n⌉ + 1` always suffices, and a batch of size 1 is a base case. -/
theorem insertWithRetry_terminates {T : Type} (insertFn : List T → Option Nat)
    (items : List T) (hne : items ≠ []) (fuel : Nat)
    (hfuel : Nat.clog 2 items.length + 1 ≤ fuel) :
    (insertWithRetry insertFn fuel items).isSome = true :=
  insertWithRetry_depth_aux insertFn items.length items rfl hne fuel hfuel

/-- C6 amended-claim witness instance. -/
theorem insertWithRetry_terminates_witness :
    (([9] : List Nat) ≠ [] ∧ Nat.clog 2 ([9] : List Nat).length + 1 ≤ 1) ∧
      (insertWithRetry (fun _ => (none : Option Nat)) 1 ([9] : List Nat)).isSome = true :=
  ⟨⟨by simp, by simp [Nat.clog_one_right]⟩,
    insertWithRetry_terminates (fun _ => (none : Option Nat)) [9] (by simp) 1
      (by simp [Nat.clog_one_right])⟩

/-! ## Checkpoint store (engine/checkpoint.ts) -/

/-- A parsed JSON value. -/
inductive Json where
  | null
  | bool (b : Bool)
  | num (n : Int)
  | str (s : String)
  | arr (elems : List Json)
  | obj (fields : List (String × Json))

/-- First field of a JS object, as property access reads it. -/
def jsGet (fields : List (String × Json)) (k : String) : Option Json :=
  (fields.find? (fun kv => kv.1 == k)).map (fun kv => kv.2)

/-- The persisted checkpoint as `loadCheckpoint` returns it. -/
structure CheckpointData where
  processedFiles : List String
  profileConfig : Json

/-- `isValidCheckpoint`: the shape check of the persisted structure. -/
def isValidCheckpoint (value : Json) : Bool :=
  match value with
  | Json.obj fields =>
    (fields.map (fun kv => kv.1)).contains "processedFiles" &&
    (fields.map (fun kv => kv.1)).contains "profileConfig" &&
    (match jsGet fields "processedFiles" with
     | some (Json.arr elems) =>
       elems.all (fun e => match e with | Json.str _ => true | _ => false)
     | _ => false) &&
    (match jsGet fields "profileConfig" with
     | some (Json.obj config) =>
       (match jsGet config "batchSize" with
        | some (Json.num _) => true
        | _ => false)
     | _ => false)
  | _ => false

/-- Extract the `processedFiles` strings from a validated value. -/
def extractProcessedFiles (value : Json) : List String :=
  match value with
  | Json.obj fields =>
    match jsGet fields "processedFiles" with
    | some (Json.arr elems) =>
      elems.filterMap (fun e => match e with | Json.str s => some s | _ => none)
    | _ => []
  | _ => []

/-- Extract the `profileConfig` object from a validated value. -/
def extractProfileConfig (value : Json) : Json :=
  match value with
  | Json.obj fields =>
    match jsGet fields "profileConfig" with
    | some cfg => cfg
    | none => Json.null
  | _ => Json.null

/-- The state of the persisted checkpoint file: absent, present but not
parseable as JSON (`JSON.parse` throws), or present with a parsed value. -/
inductive CheckpointFile where
  | absent
  | corrupt
  | json (value : Json)

/-- `loadCheckpoint`: absent file yields no checkpoint; the raw content goes
through `JSON.parse` with no surrounding try/catch, so unparseable content
raises; a parsed value is shape-checked and rejected to "no checkpoint". -/
def loadCheckpoint : CheckpointFile → Except String (Option CheckpointData)
  | CheckpointFile.absent => Except.ok none
  | CheckpointFile.corrupt => Except.error "SyntaxError: Unexpected token in JSON"
  | CheckpointFile.json value =>
    if isValidCheckpoint value then
      Except.ok (some { processedFiles := extractProcessedFiles value,
                        profileConfig := extractProfileConfig value })
    else
      Except.ok none

/-! ### Claim theorems: checkpoint load (C2) -/

/-- C2 counterexample: a present checkpoint file whose content is not valid
JSON makes `loadCheckpoint` raise (there is no try/catch around
`JSON.parse`), so corruption is not always "start fresh". -/
theorem loadCheckpoint_corrupt_raises :
    loadCheckpoint CheckpointFile.corrupt =
      Except.error "SyntaxError: Unexpected token in JSON" := rfl

/-- C2 (amended): for content that parses as JSON, a failed shape check —
non-object, missing required keys, wrong field types — yields absent and never
raises, and the stored checkpoint is returned exactly when the shape check
passes; an absent file also yields absent. Content that `JSON.parse` cannot
parse raises a `SyntaxError` instead. -/
theorem loadCheckpoint_shape_check :
    loadCheckpoint CheckpointFile.absent = Except.ok none ∧
      (∀ value : Json, isValidCheckpoint value = false →
        loadCheckpoint (CheckpointFile.json value) = Except.ok none) ∧
      (∀ value : Json, isValidCheckpoint value = true →
        loadCheckpoint (CheckpointFile.json value) =
          Except.ok (some { processedFiles := extractProcessedFiles value,
                            profileConfig := extractProfileConfig value })) := by
  refine ⟨rfl, ?_, ?_⟩
  · intro value hv
    simp [loadCheckpoint, hv]
  · intro value hv
    simp [loadCheckpoint, hv]

/-- C2 witness instance: a wrong-typed value is rejected to absent, a valid
object round-trips. -/
theorem loadCheckpoint_shape_check_witness :
    (isValidCheckpoint (Json.num 3) = false ∧
        loadCheckpoint (CheckpointFile.json (Json.num 3)) = Except.ok none) ∧
      (isValidCheckpoint
          (Json.obj [("processedFiles", Json.arr [Json.str "f1"]),
            ("profileConfig", Json.obj [("batchSize", Json.num 500)])]) = true ∧
        loadCheckpoint
            (CheckpointFile.json
              (Json.obj [("processedFiles", Json.arr [Json.str "f1"]),
                ("profileConfig", Json.obj [("batchSize", Json.num 500)])])) =
          Except.ok (some (CheckpointData.mk ["f1"]
            (Json.obj [("batchSize", Json.num 500)])))) :=
  ⟨⟨rfl, (loadCheckpoint_shape_check).2.1 (Json.num 3) rfl⟩,
    ⟨rfl, (loadCheckpoint_shape_check).2.2 _ rfl⟩⟩

/-! ## The runner (engine/runner.ts)

The `run` loop is embedded as a deterministic state machine.  The cooperative
stop flag is a pure function of a call counter: each `shouldStop()` call in
the source consumes the next index.  File processing, parsing, grouping,
transforming, chunking, upserting and checkpointing follow the source's
control flow; externally observable actions are collected as a trace of
events. -/

/-- The environment of one run: the source, profile and configuration
collaborators, each a deterministic function. `stream` returns `none` when
the streaming read throws; `upsert` returns `none` when the batch upsert
throws; `checkpoint` is the loaded checkpoint's processed-file list. -/
structure RunEnv (TItem TRaw TInsert : Type) where
  files : List String
  stream : String → Option (List TItem)
  parseItem : TItem → Option TRaw
  filter : Option (TRaw → Bool)
  groupRows : List TRaw → List (List TRaw)
  transform : List TRaw → TInsert
  upsert : List TInsert → Option Nat
  hasOnComplete : Bool
  checkpoint : Option (List String)
  batchSize : Nat
  shouldStop : Nat → Bool

/-- Externally observable actions of the runner, in order. -/
inductive RunEvent (TInsert : Type) where
  | fileStarted (file : String)
  | upsertCall (file : String) (batch : List TInsert) (result : Option Nat)
  | checkpointSaved (processedFiles : List String)
  | hookInvoked
  | checkpointDeleted
deriving DecidableEq, Repr

/-- The summary the runner returns. -/
structure RunResult where
  totalScanned : Nat
  totalInserted : Nat
  totalSkipped : Nat
  totalErrors : Nat
  filesProcessed : Nat
  filesTotal : Nat
  completed : Bool
deriving DecidableEq, Repr

/-- `new Set(...)` insertion: append the element only when absent. -/
def insertUnique (l : List String) (f : String) : List String :=
  if f ∈ l then l else l ++ [f]

/-- `new Set(array)` as an insertion-ordered duplicate-free list. -/
def dedupInOrder (l : List String) : List String :=
  l.foldl insertUnique []

/-- The streaming loop body: parse each raw item, drop nulls and filtered
rows (counting them as skipped), collect the rest in order. -/
def parseAndFilter {TItem TRaw TInsert : Type} (env : RunEnv TItem TRaw TInsert)
    (items : List TItem) : List TRaw × Nat :=
  items.foldl
    (fun acc item =>
      match env.parseItem item with
      | none => (acc.1, acc.2 + 1)
      | some parsed =>
        match env.filter with
        | some f => if f parsed then (acc.1 ++ [parsed], acc.2) else (acc.1, acc.2 + 1)
        | none => (acc.1 ++ [parsed], acc.2))
    ([], 0)

/-- `records.slice(i, i + batchSize)` chunking, with structural fuel: each
chunk consumes at least one element, so fuel equal to the list length always
suffices. The source loop advances by `batchSize` and would not terminate for
`batchSize = 0`; the model always takes at least one element, and the runner
theorems assume `1 ≤ batchSize`. -/
def chunksAux {α : Type} (bs : Nat) : Nat → List α → List (List α)
  | _, [] => []
  | 0, _ => []
  | fuel + 1, x :: xs =>
    (x :: xs).take (max bs 1) :: chunksAux bs fuel ((x :: xs).drop (max bs 1))

def chunks {α : Type} (bs : Nat) (l : List α) : List (List α) :=
  chunksAux bs l.length l

/-- Output of one file's batch-upsert loop. -/
structure BatchOut (TInsert : Type) where
  inserted : Nat
  errors : Nat
  nextCtr : Nat
  events : List (RunEvent TInsert)

/-- The batch-upsert loop of one file: the stop flag is consulted before each
batch; a thrown upsert only increments the error count. -/
def batchLoop {TItem TRaw TInsert : Type} (env : RunEnv TItem TRaw TInsert)
    (file : String) : List (List TInsert) → Nat → BatchOut TInsert
  | [], ctr => ⟨0, 0, ctr, []⟩
  | b :: rest, ctr =>
    if env.shouldStop ctr then ⟨0, 0, ctr + 1, []⟩
    else
      match env.upsert b with
      | some n =>
        let r := batchLoop env file rest (ctr + 1)
        ⟨n + r.inserted, r.errors, r.nextCtr,
          RunEvent.upsertCall file b (some n) :: r.events⟩
      | none =>
        let r := batchLoop env file rest (ctr + 1)
        ⟨r.inserted, r.errors + 1, r.nextCtr,
          RunEvent.upsertCall file b none :: r.events⟩

/-- Mutable state of the per-file loop. -/
structure LoopState where
  processed : List String
  scanned : Nat
  inserted : Nat
  skipped : Nat
  errors : Nat
  filesProcessed : Nat
  ctr : Nat

/-- The per-file loop: check the stop flag, stream and parse the file (a
throwing stream counts one error and moves on), group, transform, chunk,
upsert, then record the file as processed and save a checkpoint. -/
def fileLoop {TItem TRaw TInsert : Type} (env : RunEnv TItem TRaw TInsert) :
    List String → LoopState → LoopState × List (RunEvent TInsert)
  | [], st => (st, [])
  | f :: rest, st =>
    if env.shouldStop st.ctr then ({ st with ctr := st.ctr + 1 }, [])
    else
      match env.stream f with
      | none =>
        let r := fileLoop env rest
          { st with errors := st.errors + 1, ctr := st.ctr + 1 }
        (r.1, RunEvent.fileStarted f :: r.2)
      | some items =>
        let pf := parseAndFilter env items
        let records := (env.groupRows pf.1).map env.transform
        let bo := batchLoop env f (chunks env.batchSize records) (st.ctr + 1)
        let processed1 := insertUnique st.processed f
        let st1 : LoopState :=
          { processed := processed1
            scanned := st.scanned + pf.1.length
            inserted := st.inserted + bo.inserted
            skipped := st.skipped + pf.2
            errors := st.errors + bo.errors
            filesProcessed := st.filesProcessed + 1
            ctr := bo.nextCtr }
        let r := fileLoop env rest st1
        (r.1, RunEvent.fileStarted f ::
          (bo.events ++ RunEvent.checkpointSaved processed1 :: r.2))

/-- The processed set loaded from the checkpoint (`new Set(...)`). -/
def initProcessed {TItem TRaw TInsert : Type} (env : RunEnv TItem TRaw TInsert) :
    List String :=
  dedupInOrder (env.checkpoint.getD [])

/-- `allFiles.filter((f) => !processedSet.has(f))`. -/
def runFiles {TItem TRaw TInsert : Type} (env : RunEnv TItem TRaw TInsert) :
    List String :=
  env.files.filter (fun f => !decide (f ∈ initProcessed env))

def initState {TItem TRaw TInsert : Type} (env : RunEnv TItem TRaw TInsert) : LoopState :=
  { processed := initProcessed env, scanned := 0, inserted := 0, skipped := 0,
    errors := 0, filesProcessed := (initProcessed env).length, ctr := 0 }

/-- `completed = filesProcessed === allFiles.length && !shouldStop()` with JS
short-circuiting: the stop flag is consulted only when the counts agree. -/
def runCompleted {TItem TRaw TInsert : Type} (env : RunEnv TItem TRaw TInsert)
    (st : LoopState) : Bool :=
  if st.filesProcessed = env.files.length then !env.shouldStop st.ctr else false

/-- The completion block: run the optional hook, then delete the checkpoint,
both only on a completed run. -/
def completionEvents {TItem TRaw TInsert : Type} (env : RunEnv TItem TRaw TInsert)
    (st : LoopState) : List (RunEvent TInsert) :=
  (if runCompleted env st && env.hasOnComplete then [RunEvent.hookInvoked] else []) ++
    (if runCompleted env st then [RunEvent.checkpointDeleted] else [])

/-- `run`: the zero-files early return, then the checkpoint-driven file loop
and the completion block. -/
def runModel {TItem TRaw TInsert : Type} (env : RunEnv TItem TRaw TInsert) :
    RunResult × List (RunEvent TInsert) :=
  if env.files.length = 0 then
    (⟨0, 0, 0, 0, 0, 0, true⟩, [])
  else
    let r := fileLoop env (runFiles env) (initState env)
    (⟨r.1.scanned, r.1.inserted, r.1.skipped, r.1.errors, r.1.filesProcessed,
        env.files.length, runCompleted env r.1⟩,
      r.2 ++ completionEvents env r.1)

/-! ### Trace observables -/

/-- The files whose processing began, in order. -/
def startedFiles {TInsert : Type} (evs : List (RunEvent TInsert)) : List String :=
  evs.filterMap (fun e =>
    match e with
    | RunEvent.fileStarted f => some f
    | _ => none)

/-- The batches pushed through the batch writer for one file, in order. -/
def upsertsFor {TInsert : Type} (evs : List (RunEvent TInsert)) (f : String) :
    List (List TInsert) :=
  evs.filterMap (fun e =>
    match e with
    | RunEvent.upsertCall g b _ => if g = f then some b else none
    | _ => none)

/-- The batches one file contributes: stream, parse, filter, group, transform
and chunk — recomputed from the environment. A file whose stream throws
contributes none. -/
def batchesOf {TItem TRaw TInsert : Type} (env : RunEnv TItem TRaw TInsert)
    (f : String) : List (List TInsert) :=
  match env.stream f with
  | none => []
  | some items =>
    chunks env.batchSize ((env.groupRows (parseAndFilter env items).1).map env.transform)

/-- Every checkpoint in the trace lists only fully committed files: each file
newly listed (not in the loaded processed set `P`) had all of its batches
pushed through the batch writer before that checkpoint was saved. -/
def ckptOk {TInsert : Type} (bOf : String → List (List TInsert)) (P : List String)
    (evs : List (RunEvent TInsert)) : Prop :=
  ∀ i S, evs[i]? = some (RunEvent.checkpointSaved S) →
    ∀ f, f ∈ S → f ∉ P → ∀ b ∈ bOf f, b ∈ upsertsFor (evs.take i) f

/-- C1 as stated: in every run, every persisted checkpoint lists only fully
committed files. -/
def checkpointCommitted {TItem TRaw TInsert : Type}
    (env : RunEnv TItem TRaw TInsert) : Prop :=
  ckptOk (batchesOf env) (initProcessed env) (runModel env).2

theorem upsertsFor_append {TInsert : Type} (a b : List (RunEvent TInsert)) (f : String) :
    upsertsFor (a ++ b) f = upsertsFor a f ++ upsertsFor b f :=
  List.filterMap_append a b _

theorem startedFiles_append {TInsert : Type} (a b : List (RunEvent TInsert)) :
    startedFiles (a ++ b) = startedFiles a ++ startedFiles b :=
  List.filterMap_append a b _

theorem ckptOk_nil {TInsert : Type} (bOf : String → List (List TInsert))
    (P : List String) : ckptOk bOf P [] := by
  intro i S hget
  simp at hget

theorem ckptOk_of_no_cp {TInsert : Type} (bOf : String → List (List TInsert))
    (P : List String) (evs : List (RunEvent TInsert))
    (h : ∀ S, RunEvent.checkpointSaved S ∉ evs) : ckptOk bOf P evs := by
  intro i S hget
  exact absurd (List.getElem?_mem hget) (h S)

/-- Assembling a trace: a block whose checkpoints are satisfied locally,
followed by a trace whose checkpoints are satisfied relative to the enlarged
processed set `Q`, where every file of `Q` not in `P` was fully committed
within the block. -/
theorem ckptOk_append {TInsert : Type} (bOf : String → List (List TInsert))
    (P Q : List String) (block rest : List (RunEvent TInsert))
    (hblock : ckptOk bOf P block)
    (hnew : ∀ f, f ∈ Q → f ∉ P → ∀ b ∈ bOf f, b ∈ upsertsFor block f)
    (hrest : ckptOk bOf Q rest) : ckptOk bOf P (block ++ rest) := by
  intro i S hget f hfS hfP b hb
  rw [List.getElem?_append] at hget
  rw [List.take_append_eq_append_take]
  by_cases hi : i < block.length
  · rw [if_pos hi] at hget
    have : i - block.length = 0 := by omega
    rw [this, List.take_zero, List.append_nil]
    exact hblock i S hget f hfS hfP b hb
  · rw [if_neg hi] at hget
    have hblen : block.take i = block := List.take_of_length_le (by omega)
    rw [hblen, upsertsFor_append]
    by_cases hfQ : f ∈ Q
    · exact List.mem_append_left _ (hnew f hfQ hfP b hb)
    · exact List.mem_append_right _
        (hrest (i - block.length) S hget f hfS hfQ b hb)

/-- A block consisting of checkpoint-free events followed by one checkpoint
whose newly listed files were all committed within those events. -/
theorem ckptOk_single_cp {TInsert : Type} (bOf : String → List (List TInsert))
    (P : List String) (pre : List (RunEvent TInsert)) (S0 : List String)
    (hpre : ∀ S, RunEvent.checkpointSaved S ∉ pre)
    (hS0 : ∀ f, f ∈ S0 → f ∉ P → ∀ b ∈ bOf f, b ∈ upsertsFor pre f) :
    ckptOk bOf P (pre ++ [RunEvent.checkpointSaved S0]) := by
  intro i S hget f hfS hfP b hb
  rw [List.getElem?_append] at hget
  by_cases hi : i < pre.length
  · rw [if_pos hi] at hget
    exact absurd (List.getElem?_mem hget) (hpre S)
  · rw [if_neg hi] at hget
    have hi0 : i - pre.length = 0 := by
      by_contra hne
      have h1 : 1 ≤ i - pre.length := by omega
      have : ([RunEvent.checkpointSaved S0] : List (RunEvent TInsert))[i - pre.length]? =
          none := by
        rw [List.getElem?_eq_none]
        simpa using h1
      rw [this] at hget
      cases hget
    rw [hi0] at hget
    simp only [List.getElem?_cons_zero, Option.some.injEq, RunEvent.checkpointSaved.injEq]
      at hget
    subst hget
    rw [List.take_append_eq_append_take, List.take_of_length_le (by omega)]
    rw [upsertsFor_append]
    exact List.mem_append_left _ (hS0 f hfS hfP b hb)

/-! ### Batch-loop and file-loop facts -/

theorem batchLoop_events_shape {TItem TRaw TInsert : Type}
    (env : RunEnv TItem TRaw TInsert) (file : String) :
    ∀ (batches : List (List TInsert)) (ctr : Nat),
      ∀ e ∈ (batchLoop env file batches ctr).events,
        ∃ b r, e = RunEvent.upsertCall file b r := by
  intro batches
  induction batches with
  | nil => intro ctr e he; cases he
  | cons b rest ih =>
    intro ctr e he
    unfold batchLoop at he
    by_cases hs : env.shouldStop ctr = true
    · rw [if_pos hs] at he
      cases he
    · rw [if_neg hs] at he
      cases hu : env.upsert b with
      | some n =>
        rw [hu] at he
        rcases List.mem_cons.1 he with rfl | he2
        · exact ⟨b, some n, rfl⟩
        · exact ih (ctr + 1) e he2
      | none =>
        rw [hu] at he
        rcases List.mem_cons.1 he with rfl | he2
        · exact ⟨b, none, rfl⟩
        · exact ih (ctr + 1) e he2

theorem batchLoop_no_cp {TItem TRaw TInsert : Type}
    (env : RunEnv TItem TRaw TInsert) (file : String)
    (batches : List (List TInsert)) (ctr : Nat) (S : List String) :
    RunEvent.checkpointSaved S ∉ (batchLoop env file batches ctr).events := by
  intro hmem
  obtain ⟨b, r, he⟩ := batchLoop_events_shape env file batches ctr _ hmem
  cases he

theorem batchLoop_no_fileStarted {TItem TRaw TInsert : Type}
    (env : RunEnv TItem TRaw TInsert) (file : String)
    (batches : List (List TInsert)) (ctr : Nat) :
    startedFiles (batchLoop env file batches ctr).events = [] := by
  unfold startedFiles
  rw [List.filterMap_eq_nil_iff]
  intro e he
  obtain ⟨b, r, rfl⟩ := batchLoop_events_shape env file batches ctr e he
  rfl

/-- With the stop flag never raised, the batch loop pushes every batch, in
order, through the writer. -/
theorem batchLoop_noStop_events {TItem TRaw TInsert : Type}
    (env : RunEnv TItem TRaw TInsert) (file : String)
    (hstop : ∀ n, env.shouldStop n = false) :
    ∀ (batches : List (List TInsert)) (ctr : Nat),
      (batchLoop env file batches ctr).events =
        batches.map (fun b => RunEvent.upsertCall file b (env.upsert b)) := by
  intro batches
  induction batches with
  | nil => intro ctr; rfl
  | cons b rest ih =>
    intro ctr
    unfold batchLoop
    rw [if_neg (by rw [hstop ctr]; exact Bool.false_ne_true)]
    cases hu : env.upsert b with
    | some n => simpa [hu] using ih (ctr + 1)
    | none => simpa [hu] using ih (ctr + 1)

theorem upsertsFor_map_self {TInsert : Type} (file : String)
    (batches : List (List TInsert)) (res : List TInsert → Option Nat) :
    upsertsFor (batches.map (fun b => RunEvent.upsertCall file b (res b))) file =
      batches := by
  induction batches with
  | nil => rfl
  | cons b rest ih =>
    unfold upsertsFor at ih ⊢
    simp only [List.map_cons, List.filterMap_cons]
    simp [ih]

/-- With the stop flag never raised, every checkpoint the file loop saves
lists only files whose full batch list was already pushed (beyond the
processed set carried in from the loop state). -/
theorem fileLoop_ckptOk {TItem TRaw TInsert : Type}
    (env : RunEnv TItem TRaw TInsert) (hstop : ∀ n, env.shouldStop n = false) :
    ∀ (files : List String) (st : LoopState),
      ckptOk (batchesOf env) st.processed (fileLoop env files st).2 := by
  intro files
  induction files with
  | nil => intro st; exact ckptOk_nil _ _
  | cons f rest ih =>
    intro st
    unfold fileLoop
    rw [if_neg (by rw [hstop st.ctr]; exact Bool.false_ne_true)]
    cases hstream : env.stream f with
    | none =>
      have hshape : (RunEvent.fileStarted f ::
            (fileLoop env rest { st with errors := st.errors + 1, ctr := st.ctr + 1 }).2) =
          [RunEvent.fileStarted f] ++
            (fileLoop env rest { st with errors := st.errors + 1, ctr := st.ctr + 1 }).2 :=
        rfl
      simp only
      rw [hshape]
      exact ckptOk_append (batchesOf env) st.processed st.processed _ _
        (ckptOk_of_no_cp _ _ _ (by intro S hmem; simp at hmem))
        (by intro g hgQ hgP; exact absurd hgQ hgP)
        (ih { st with errors := st.errors + 1, ctr := st.ctr + 1 })
    | some items =>
      simp only
      set pf := parseAndFilter env items with hpf
      set records := (env.groupRows pf.1).map env.transform with hrecords
      set bo := batchLoop env f (chunks env.batchSize records) (st.ctr + 1) with hbo
      set processed1 := insertUnique st.processed f with hprocessed1
      set st1 : LoopState :=
        { processed := processed1
          scanned := st.scanned + pf.1.length
          inserted := st.inserted + bo.inserted
          skipped := st.skipped + pf.2
          errors := st.errors + bo.errors
          filesProcessed := st.filesProcessed + 1
          ctr := bo.nextCtr } with hst1
      have hshape : (RunEvent.fileStarted f ::
            (bo.events ++ RunEvent.checkpointSaved processed1 :: (fileLoop env rest st1).2)) =
          ((RunEvent.fileStarted f :: bo.events) ++ [RunEvent.checkpointSaved processed1]) ++
            (fileLoop env rest st1).2 := by
        simp
      rw [hshape]
      have hbatches : upsertsFor (RunEvent.fileStarted f :: bo.events) f =
          chunks env.batchSize records := by
        have h1 : upsertsFor (RunEvent.fileStarted f :: bo.events) f =
            upsertsFor bo.events f := by
          unfold upsertsFor
          rw [List.filterMap_cons]
        rw [h1, hbo, batchLoop_noStop_events env f hstop, upsertsFor_map_self]
      have hcommitted : ∀ g, g ∈ processed1 → g ∉ st.processed →
          ∀ b ∈ batchesOf env g, b ∈ upsertsFor (RunEvent.fileStarted f :: bo.events) g := by
        intro g hgQ hgP b hb
        have hgf : g = f := by
          rw [hprocessed1] at hgQ
          unfold insertUnique at hgQ
          by_cases hfmem : f ∈ st.processed
          · rw [if_pos hfmem] at hgQ
            exact absurd hgQ hgP
          · rw [if_neg hfmem] at hgQ
            rcases List.mem_append.1 hgQ with hgQ | hgQ
            · exact absurd hgQ hgP
            · simpa using hgQ
        subst hgf
        rw [hbatches]
        unfold batchesOf at hb
        rw [hstream] at hb
        exact hb
      apply ckptOk_append (batchesOf env) st.processed processed1
      · apply ckptOk_single_cp
        · intro S hmem
          rcases List.mem_cons.1 hmem with hS | hS
          · cases hS
          · exact batchLoop_no_cp env f _ _ S hS
        · exact hcommitted
      · intro g hgQ hgP b hb
        rw [upsertsFor_append]
        exact List.mem_append_left _ (hcommitted g hgQ hgP b hb)
      · exact ih st1

theorem mem_insertUnique (l : List String) (x a : String) :
    a ∈ insertUnique l x ↔ a ∈ l ∨ a = x := by
  unfold insertUnique
  by_cases hx : x ∈ l
  · rw [if_pos hx]
    constructor
    · exact Or.inl
    · rintro (h | rfl)
      · exact h
      · exact hx
  · rw [if_neg hx]
    simp

theorem mem_foldl_insertUnique (l : List String) :
    ∀ (acc : List String) (a : String),
      a ∈ l.foldl insertUnique acc ↔ a ∈ acc ∨ a ∈ l := by
  induction l with
  | nil => intro acc a; simp
  | cons x t ih =>
    intro acc a
    rw [List.foldl_cons, ih (insertUnique acc x) a, mem_insertUnique]
    constructor
    · rintro ((h | rfl) | h)
      · exact Or.inl h
      · exact Or.inr (List.mem_cons_self _ _)
      · exact Or.inr (List.mem_cons_of_mem _ h)
    · rintro (h | h)
      · exact Or.inl (Or.inl h)
      · rcases List.mem_cons.1 h with rfl | h2
        · exact Or.inl (Or.inr rfl)
        · exact Or.inr h2

theorem mem_dedupInOrder (l : List String) (a : String) :
    a ∈ dedupInOrder l ↔ a ∈ l := by
  unfold dedupInOrder
  rw [mem_foldl_insertUnique]
  simp

theorem completionEvents_no_cp {TItem TRaw TInsert : Type}
    (env : RunEnv TItem TRaw TInsert) (st : LoopState) (S : List String) :
    RunEvent.checkpointSaved S ∉ (completionEvents env st : List (RunEvent TInsert)) := by
  unfold completionEvents
  intro hmem
  rcases List.mem_append.1 hmem with h | h
  · by_cases hcond : (runCompleted env st && env.hasOnComplete) = true
    · rw [if_pos hcond] at h
      simp at h
    · rw [if_neg hcond] at h
      simp at h
  · by_cases hcond : runCompleted env st = true
    · rw [if_pos hcond] at h
      simp at h
    · rw [if_neg hcond] at h
      simp at h

theorem startedFiles_completionEvents {TItem TRaw TInsert : Type}
    (env : RunEnv TItem TRaw TInsert) (st : LoopState) :
    startedFiles (completionEvents env st : List (RunEvent TInsert)) = [] := by
  unfold completionEvents startedFiles
  rw [List.filterMap_append]
  by_cases h1 : (runCompleted env st && env.hasOnComplete) = true <;>
    by_cases h2 : runCompleted env st = true <;>
      simp [h1, h2]

/-- With the stop flag never raised, every file handed to the file loop has
its processing started, in order. -/
theorem fileLoop_startedFiles {TItem TRaw TInsert : Type}
    (env : RunEnv TItem TRaw TInsert) (hstop : ∀ n, env.shouldStop n = false) :
    ∀ (files : List String) (st : LoopState),
      startedFiles (fileLoop env files st).2 = files := by
  intro files
  induction files with
  | nil => intro st; rfl
  | cons f rest ih =>
    intro st
    unfold fileLoop
    rw [if_neg (by rw [hstop st.ctr]; exact Bool.false_ne_true)]
    cases hstream : env.stream f with
    | none =>
      simp only
      unfold startedFiles at ih ⊢
      rw [List.filterMap_cons]
      simp only
      rw [ih]
    | some items =>
      simp only
      unfold startedFiles at ih ⊢
      rw [List.filterMap_cons]
      simp only
      rw [List.filterMap_append, List.filterMap_cons]
      simp only
      have hbatch := batchLoop_no_fileStarted env f
        (chunks env.batchSize ((env.groupRows (parseAndFilter env items).1).map env.transform))
        (st.ctr + 1)
      unfold startedFiles at hbatch
      rw [hbatch, ih]
      rfl

/-! ### Claim theorems: the runner (C1, C7, C9) -/

/-- C1 (amended): when cooperative cancellation is never requested during a
run, every file identifier in every persisted checkpoint's processed-file set
is fully committed — all of that file's batches went through the batch writer
before that checkpoint was saved. -/
theorem runModel_checkpoint_committed {TItem TRaw TInsert : Type}
    (env : RunEnv TItem TRaw TInsert) (hstop : ∀ n, env.shouldStop n = false)
    (hbs : 1 ≤ env.batchSize) : checkpointCommitted env := by
  unfold checkpointCommitted runModel
  by_cases hz : env.files.length = 0
  · rw [if_pos hz]
    exact ckptOk_nil _ _
  · rw [if_neg hz]
    simp only
    apply ckptOk_append (batchesOf env) (initProcessed env) (initProcessed env)
    · exact fileLoop_ckptOk env hstop (runFiles env) (initState env)
    · intro g hgQ hgP
      exact absurd hgQ hgP
    · exact ckptOk_of_no_cp _ _ _ (fun S => completionEvents_no_cp env _ S)

/-- The environment of the C1 counterexample: one file producing two
single-record batches, with the stop flag raised at the second batch
boundary. -/
def envC1 : RunEnv Nat Nat Nat :=
  { files := ["f"], stream := fun _ => some [0, 1], parseItem := some, filter := none,
    groupRows := fun rows => rows.map (fun r => [r]), transform := fun g => g.headD 0,
    upsert := fun b => some b.length, hasOnComplete := false, checkpoint := none,
    batchSize := 1, shouldStop := fun n => n == 2 }

/-- C1 counterexample: the stop flag interrupts the batch loop of file `"f"`
after its first of two batches, yet the saved checkpoint lists `"f"` as
processed — the second batch was never pushed. -/
theorem runModel_interrupted_file_checkpointed : ¬ checkpointCommitted envC1 := by
  intro h
  have h2 := h 2 ["f"] (by rfl) "f" (by decide) (by decide) [1] (by decide)
  exact absurd h2 (by decide)

/-- C1 amended-claim witness environment: same shape, never cancelled. -/
def envC1w : RunEnv Nat Nat Nat :=
  { files := ["f"], stream := fun _ => some [0, 1], parseItem := some, filter := none,
    groupRows := fun rows => rows.map (fun r => [r]), transform := fun g => g.headD 0,
    upsert := fun b => some b.length, hasOnComplete := false, checkpoint := none,
    batchSize := 1, shouldStop := fun _ => false }

/-- C1 witness instance. -/
theorem runModel_checkpoint_committed_witness :
    ((∀ n, envC1w.shouldStop n = false) ∧ 1 ≤ envC1w.batchSize) ∧
      checkpointCommitted envC1w :=
  ⟨⟨fun _ => rfl, by decide⟩,
    runModel_checkpoint_committed envC1w (fun _ => rfl) (by decide)⟩

/-- C7: with a loaded checkpoint recording processed set `P ⊆ F` and no
cancellation, a run starts exactly the files of `F \ P`, in `F`'s order, and
never re-processes a file of `P`. -/
theorem runModel_resume_exact {TItem TRaw TInsert : Type}
    (env : RunEnv TItem TRaw TInsert) (P : List String)
    (hcp : env.checkpoint = some P)
    (hPF : ∀ p ∈ P, p ∈ env.files)
    (hstop : ∀ n, env.shouldStop n = false)
    (hbs : 1 ≤ env.batchSize) :
    startedFiles (runModel env).2 = env.files.filter (fun f => !decide (f ∈ P)) ∧
      ∀ p ∈ P, p ∉ startedFiles (runModel env).2 := by
  have hmain : startedFiles (runModel env).2 =
      env.files.filter (fun f => !decide (f ∈ P)) := by
    unfold runModel
    by_cases hz : env.files.length = 0
    · rw [if_pos hz]
      have : env.files = [] := List.length_eq_zero.1 hz
      rw [this]
      rfl
    · rw [if_neg hz]
      simp only
      rw [startedFiles_append, startedFiles_completionEvents, List.append_nil,
        fileLoop_startedFiles env hstop]
      unfold runFiles
      apply List.filter_congr
      intro f hf
      have : f ∈ initProcessed env ↔ f ∈ P := by
        unfold initProcessed
        rw [hcp]
        exact mem_dedupInOrder P f
      by_cases hfP : f ∈ P
      · simp [this, hfP]
      · simp [this, hfP]
  refine ⟨hmain, ?_⟩
  intro p hp hmem
  rw [hmain] at hmem
  have := (List.mem_filter.1 hmem).2
  simp [hp] at this

/-- C7 witness environment: files `a, b, c`, checkpointed `b`. -/
def envC7 : RunEnv Nat Nat Nat :=
  { files := ["a", "b", "c"], stream := fun _ => some [1, 2], parseItem := some,
    filter := none, groupRows := fun rows => [rows], transform := fun g => g.length,
    upsert := fun b => some b.length, hasOnComplete := false, checkpoint := some ["b"],
    batchSize := 2, shouldStop := fun _ => false }

/-- C7 witness instance: the run starts exactly `a` and `c`. -/
theorem runModel_resume_exact_witness :
    (envC7.checkpoint = some ["b"] ∧ (∀ p ∈ ["b"], p ∈ envC7.files) ∧
        (∀ n, envC7.shouldStop n = false) ∧ 1 ≤ envC7.batchSize) ∧
      (startedFiles (runModel envC7).2 =
          envC7.files.filter (fun f => !decide (f ∈ ["b"])) ∧
        ∀ p ∈ ["b"], p ∉ startedFiles (runModel envC7).2) ∧
      envC7.files.filter (fun f => !decide (f ∈ ["b"])) = ["a", "c"] :=
  ⟨⟨rfl, by decide, fun _ => rfl, by decide⟩,
    runModel_resume_exact envC7 ["b"] rfl (by decide) (fun _ => rfl) (by decide),
    by decide⟩

/-- C9 (amended): when at least one file is listed and the run finishes with
`completed = true`, the optional post-completion hook is invoked (when
provided) and the checkpoint is deleted before the run returns. -/
theorem runModel_completion_effects {TItem TRaw TInsert : Type}
    (env : RunEnv TItem TRaw TInsert) (hne : env.files ≠ [])
    (hc : (runModel env).1.completed = true) :
    (env.hasOnComplete = true → RunEvent.hookInvoked ∈ (runModel env).2) ∧
      RunEvent.checkpointDeleted ∈ (runModel env).2 := by
  have hz : ¬ env.files.length = 0 := by
    simpa [List.length_eq_zero] using hne
  unfold runModel at hc ⊢
  rw [if_neg hz] at hc ⊢
  simp only at hc ⊢
  constructor
  · intro hh
    apply List.mem_append_right
    unfold completionEvents
    rw [hc, hh]
    simp
  · apply List.mem_append_right
    unfold completionEvents
    rw [hc]
    simp

/-- C9 counterexample environment: the source lists zero files, a hook is
provided and a checkpoint exists. -/
def envC9 : RunEnv Nat Nat Nat :=
  { files := [], stream := fun _ => none, parseItem := some, filter := none,
    groupRows := fun rows => [rows], transform := fun g => g.headD 0,
    upsert := fun b => some b.length, hasOnComplete := true, checkpoint := some ["old"],
    batchSize := 5, shouldStop := fun _ => false }

/-- C9 counterexample: with zero listed files the run returns
`completed = true` from the early return, but the provided hook is never
invoked and the checkpoint is never deleted. -/
theorem runModel_zero_files_skips_hook :
    (runModel envC9).1.completed = true ∧ envC9.hasOnComplete = true ∧
      RunEvent.hookInvoked ∉ (runModel envC9).2 ∧
      RunEvent.checkpointDeleted ∉ (runModel envC9).2 := by
  refine ⟨rfl, rfl, ?_, ?_⟩ <;>
    · intro hmem
      have : (runModel envC9).2 = [] := rfl
      rw [this] at hmem
      cases hmem

/-- C9 witness environment: one file, no cancellation, hook provided. -/
def envC9w : RunEnv Nat Nat Nat :=
  { files := ["a"], stream := fun _ => some [1], parseItem := some, filter := none,
    groupRows := fun rows => [rows], transform := fun g => g.headD 0,
    upsert := fun b => some b.length, hasOnComplete := true, checkpoint := none,
    batchSize := 5, shouldStop := fun _ => false }

/-- C9 witness instance. -/
theorem runModel_completion_effects_witness :
    (envC9w.files ≠ [] ∧ (runModel envC9w).1.completed = true) ∧
      ((envC9w.hasOnComplete = true → RunEvent.hookInvoked ∈ (runModel envC9w).2) ∧
        RunEvent.checkpointDeleted ∈ (runModel envC9w).2) :=
  ⟨⟨by simp [envC9w], by decide⟩,
    runModel_completion_effects envC9w (by simp [envC9w]) (by decide)⟩

end Dataflux
